import Mathlib

/-!
Verification of the video assembly / compilation pipeline of the Video-Reel
repository.  The definitions below are shallow embeddings of the TypeScript
source: pure fragments become Lean functions, subprocess-driven fragments are
parametrised by the subprocess outcome (exit code, parsed output), and the
orchestrator's control flow is modelled by explicit case analysis on the
outcome of the wrapped steps.  Times and durations are modelled by `ℚ`.
-/

set_option autoImplicit false

namespace VideoReel

/-! ## Duration prober (`getAudioDuration`, createVideoWithRemotion.ts lines 130-161)

`getAudioDuration` spawns `ffprobe`; on exit code 0 it parses the captured
stdout with `parseFloat` and resolves when the result is not `NaN`, otherwise
it rejects.  The subprocess is modelled by its exit code together with the
result of `parseFloat` on its output (`none` = not parseable / NaN). -/

def getAudioDuration (exitCode : Int) (parsedOutput : Option ℚ) : Except String ℚ :=
  if exitCode = 0 then
    match parsedOutput with
    | some d => Except.ok d
    | none => Except.error "Could not parse audio duration"
  else
    Except.error ("ffprobe failed with code " ++ toString exitCode)

/-! ## Subtitle timing data built by `generateVideoContent`
(createVideoWithRemotion.ts lines 1476-1503)

For each script segment the code initialises `audioDuration` with the planned
script duration, then tries `getAudioDuration`; on rejection it keeps the
planned duration (`catch` only logs).  Each segment is therefore described by
its text, its planned duration, and the modelled ffprobe outcome. -/

structure ProbedSeg where
  text : String
  planned : ℚ
  ffprobeExit : Int
  ffprobeParsed : Option ℚ
deriving DecidableEq

/-- The `audioDuration` value used for a segment: the probed duration when
`getAudioDuration` resolves, silently the planned script duration when it
rejects (createVideoWithRemotion.ts lines 1482-1490). -/
def segDuration (s : ProbedSeg) : ℚ :=
  match getAudioDuration s.ffprobeExit s.ffprobeParsed with
  | Except.ok d => d
  | Except.error _ => s.planned

structure SubEntry where
  text : String
  startTime : ℚ
  endTime : ℚ
deriving DecidableEq

/-- The loop of step 5 of `generateVideoContent`: walk the segments keeping a
running `currentStartTime` that starts at `t`. -/
def buildSubtitleDataFrom (t : ℚ) : List ProbedSeg → List SubEntry
  | [] => []
  | s :: rest =>
    ⟨s.text, t, t + segDuration s⟩ :: buildSubtitleDataFrom (t + segDuration s) rest

/-- Subtitle timing data as built by `generateVideoContent` (running time
starts at 0). -/
def buildSubtitleData (segs : List ProbedSeg) : List SubEntry :=
  buildSubtitleDataFrom 0 segs

/-- A segment whose ffprobe call succeeded with measured duration `d`. -/
def measuredSeg (text : String) (planned : ℚ) (d : ℚ) : ProbedSeg :=
  ⟨text, planned, 0, some d⟩

/-! ## Orchestrator terminal update (`generateVideoContent`,
createVideoWithRemotion.ts lines 1369-1546)

The whole generation sequence is raced against a 10-minute timer that rejects
with a fixed message.  The surrounding `try`/`catch` performs the terminal
`storage.updateVideo` and, only in the `catch` branch, `cleanupTempFiles`.
The generation outcome is modelled as `Except String Unit`. -/

structure FinalUpdate where
  status : String
  errorMessage : Option String
  cleanupCalled : Bool
deriving DecidableEq

/-- Terminal behaviour of `generateVideoContent`: on success the video is
marked `completed` and no cleanup runs; on any error (including the timeout
rejection) the video is marked `failed` with the error message and
`cleanupTempFiles(tempFiles)` runs. -/
def generateVideoContentFinal (outcome : Except String Unit) : FinalUpdate :=
  match outcome with
  | Except.ok _ => ⟨"completed", none, false⟩
  | Except.error msg => ⟨"failed", some msg, true⟩

/-- The rejection message of the global timer
(createVideoWithRemotion.ts line 1382). -/
def timeoutMessage : String := "Video generation timed out after 10 minutes"

/-- Outcome of a job whose execution exceeded the global timeout: the race
rejects with `timeoutMessage`. -/
def timeoutOutcome : Except String Unit := Except.error timeoutMessage

/-- Temp file names used by `generateVideoContent` for the per-segment
downloaded image (line 1432). -/
def imageTempPath (videoId : String) (i : ℕ) : String :=
  "temp/image-" ++ videoId ++ "-" ++ toString i ++ ".jpg"

/-- Temp file name for the per-segment synthesized audio (line 1450). -/
def audioTempPath (videoId : String) (i : ℕ) : String :=
  "temp/audio-" ++ videoId ++ "-" ++ toString i ++ ".mp3"

/-- Temp file name of the rendered output video (line 1462).  It is never
pushed onto `tempFiles`. -/
def videoTempPath (videoId : String) : String :=
  "temp/video-" ++ videoId ++ ".mp4"

/-- The `tempFiles` list accumulated by `generateVideoContent` for a job with
`n` segments: the downloaded images and the audio segments (lines 1435 and
1453); the rendered video is not tracked. -/
def trackedTempFiles (videoId : String) (n : ℕ) : List String :=
  (List.range n).map (imageTempPath videoId) ++ (List.range n).map (audioTempPath videoId)

/-! ## Backend fallback (`createVideoWithRevideo`, src/unnamed/part_012 lines 17-56)

The primary backend first concatenates the audio segments, then renders with
Revideo; any rejection of either step is caught and the enhanced FFmpeg
backend (`enhancedVideoProcessor.createVideo`) is invoked instead.  The three
effectful steps are modelled by their outcomes. -/

structure RevideoOutcomes where
  audioConcat : Except String String
  revideoRender : Except String Unit
  enhancedCreate : Except String Unit

/-- The body of the `try` block: audio concatenation followed by the Revideo
render. -/
def revideoPrimary (o : RevideoOutcomes) : Except String Unit :=
  match o.audioConcat with
  | Except.error e => Except.error e
  | Except.ok _ => o.revideoRender

/-- `createVideoWithRevideo`: on any error of the primary path the `catch`
block runs the enhanced FFmpeg backend. -/
def createVideoWithRevideoRun (o : RevideoOutcomes) : Except String Unit :=
  match revideoPrimary o with
  | Except.ok _ => Except.ok ()
  | Except.error _ => o.enhancedCreate

/-! ## Empty-asset guard of `createVideo`
(enhancedVideoProcessor.ts lines 49-53, basicVideoProcessor.ts lines 49-53,
src/unnamed/part_011 lines 181-185)

All three `createVideo` entry points start with the same guard; the rest of
the pipeline (audio processing, then the encoder invocation) is modelled by
the outcomes of the two awaited steps, together with the list of steps that
were actually attempted. -/

def noAssetsMessage : String := "No assets provided for video creation"

/-- `enhancedVideoProcessor.createVideo`: guard, then `processAudio`, then
`createAdvancedVideo`.  Returns the settled promise value together with the
names of the steps that were started. -/
def enhancedCreateVideoRun (images audioSegments : List String)
    (processAudioOutcome : Except String Unit)
    (advancedVideoOutcome : Except String Unit)
    (outputPath : String) : Except String String × List String :=
  if images.length = 0 ∨ audioSegments.length = 0 then
    (Except.error noAssetsMessage, [])
  else
    match processAudioOutcome with
    | Except.error e => (Except.error e, ["processAudio"])
    | Except.ok _ =>
      match advancedVideoOutcome with
      | Except.error e => (Except.error e, ["processAudio", "createAdvancedVideo"])
      | Except.ok _ => (Except.ok outputPath, ["processAudio", "createAdvancedVideo"])

/-- `basicVideoProcessor.createVideo`: same guard, then `processAudio`, then
`createBasicVideo`. -/
def basicCreateVideoRun (images audioSegments : List String)
    (processAudioOutcome : Except String Unit)
    (basicVideoOutcome : Except String Unit)
    (outputPath : String) : Except String String × List String :=
  if images.length = 0 ∨ audioSegments.length = 0 then
    (Except.error noAssetsMessage, [])
  else
    match processAudioOutcome with
    | Except.error e => (Except.error e, ["processAudio"])
    | Except.ok _ =>
      match basicVideoOutcome with
      | Except.error e => (Except.error e, ["processAudio", "createBasicVideo"])
      | Except.ok _ => (Except.ok outputPath, ["processAudio", "createBasicVideo"])

/-! ## Audio assembly commands
(`processAudio` in enhancedVideoProcessor.ts lines 83-178 and in
basicVideoProcessor.ts lines 80-140)

Both assemblers only drive `ffmpeg`; each is modelled by the ordered list of
`ffmpeg` argument vectors it spawns. -/

/-- A single quote character (written via its code point). -/
def squote : Char := Char.ofNat 39

/-- Contents of the `audio_list.txt` concat list file written by the enhanced
`processAudio` (line 130): one `file p` line per clip, with `p` single
quoted. -/
def audioListContent (audioSegments : List String) : String :=
  String.intercalate "\n"
    (audioSegments.map (fun p => "file " ++ String.mk [squote] ++ p ++ String.mk [squote]))

/-- `ffmpeg` invocations spawned by the enhanced `processAudio`: a single
normalize-and-copy for one clip, otherwise a single concat-demuxer run over
the original clips (no per-clip pass). -/
def enhancedProcessAudioInvocations (audioSegments : List String)
    (listFilePath outputPath : String) : List (List String) :=
  match audioSegments with
  | [single] =>
    [["-y", "-i", single, "-c:a", "pcm_s16le", "-ar", "44100", "-af", "volume=0.8",
      outputPath]]
  | _ =>
    [["-y", "-f", "concat", "-safe", "0", "-i", listFilePath,
      "-c:a", "pcm_s16le", "-ar", "44100", "-af", "volume=0.8", outputPath]]

/-- Normalization command of `basicVideoProcessor.normalizeAudio`
(lines 102-117): mono, 16-bit PCM, 44.1 kHz. -/
def basicNormalizeCmd (inputPath outputPath : String) : List String :=
  ["-y", "-i", inputPath, "-acodec", "pcm_s16le", "-ar", "44100", "-ac", "1", outputPath]

/-- Path of the i-th normalized intermediate written by the basic
`processAudio` (line 86). -/
def basicNormPath (outputDir : String) (i : ℕ) : String :=
  outputDir ++ "/norm_" ++ toString i ++ ".wav"

/-- Concatenation command of `basicVideoProcessor.concatenateAudio`
(lines 119-140): every normalized clip as an `-i` input, joined by the
`concat` audio filter and re-encoded to 16-bit PCM 44.1 kHz. -/
def basicConcatCmd (normPaths : List String) (outputPath : String) : List String :=
  ["-y"] ++ (normPaths.map (fun p => ["-i", p])).flatten ++
    ["-filter_complex", "concat=n=" ++ toString normPaths.length ++ ":v=0:a=1",
     "-acodec", "pcm_s16le", "-ar", "44100", outputPath]

/-- `ffmpeg` invocations spawned by the basic `processAudio`: one
normalization per clip in index order, then the filter-level concatenation of
the normalized files. -/
def basicProcessAudioInvocations (audioSegments : List String)
    (outputDir : String) : List (List String) :=
  (audioSegments.enum.map (fun p => basicNormalizeCmd p.2 (basicNormPath outputDir p.1))) ++
    [basicConcatCmd ((List.range audioSegments.length).map (basicNormPath outputDir))
      (outputDir ++ "/processed_audio.wav")]

/-- The file returned by the basic `processAudio` (line 99). -/
def basicProcessAudioResult (outputDir : String) : String :=
  outputDir ++ "/processed_audio.wav"

/-- In the basic `processAudio`, the normalized intermediates are unlinked
only after `concatenateAudio` resolves (lines 92-97); if it rejects, the
`await` throws first and they are left behind. -/
def basicNormFilesCleaned (concatOk : Bool) : Bool :=
  concatOk

/-- In the enhanced multi-clip branch, the concat list file is unlinked in the
`close` handler before the exit code is inspected (lines 151-157), so it is
removed whether or not the invocation succeeded. -/
def enhancedListFileCleaned (_ffmpegExit : Int) : Bool :=
  true

/-- The claim's reading of §4.2: the assembler's invocation sequence consists
of one mono 16-bit 44.1 kHz normalization per input clip, in index order,
followed by a single demuxer-level concatenation that re-encodes nothing. -/
def isMonoNormalizeCmd (cmd : List String) (input : String) : Prop :=
  input ∈ cmd ∧ "pcm_s16le" ∈ cmd ∧ "44100" ∈ cmd ∧ "-ac" ∈ cmd ∧ "1" ∈ cmd

/-- A demuxer-level concatenation: the `concat` input format is selected and
no filter graph re-encodes the clips. -/
def isDemuxerConcatCmd (cmd : List String) : Prop :=
  "-f" ∈ cmd ∧ "concat" ∈ cmd ∧ "-filter_complex" ∉ cmd

/-- Statement of claim C6 for one assembler, given the invocation list it
spawns on a clip list. -/
def assembleMatchesClaim (invocations : List (List String)) (segs : List String) : Prop :=
  ∃ norms concatRun, invocations = norms ++ [concatRun] ∧
    norms.length = segs.length ∧
    (∀ i : Fin segs.length, ∀ hi : (i : ℕ) < norms.length,
      isMonoNormalizeCmd (norms.get ⟨i, hi⟩) (segs.get i)) ∧
    isDemuxerConcatCmd concatRun

/-! ## Visual timeline of `createAdvancedVideo`
(enhancedVideoProcessor.ts lines 180-304)

`durationPerImage = totalDuration / imagePaths.length`; every image is fed to
`ffmpeg` as a looped input of length `durationPerImage + 1` (line 207), the
per-image filters are concatenated in image order, and `-shortest`
(line 282) truncates the output at the narration length. -/

def durationPerImage (totalDuration : ℚ) (imageCount : ℕ) : ℚ :=
  totalDuration / imageCount

/-- The `-t` value given to each looped image input (line 207). -/
def imageInputLength (totalDuration : ℚ) (imageCount : ℚ) : ℚ :=
  totalDuration / imageCount + 1

/-- Time window of image `i` in the concatenated visual track before the
`-shortest` truncation: clips of length `durationPerImage + 1` laid end to
end in image order. -/
def rawVisualSlot (totalDuration : ℚ) (imageCount : ℕ) (i : ℕ) : ℚ × ℚ :=
  (i * (durationPerImage totalDuration imageCount + 1),
   (i + 1) * (durationPerImage totalDuration imageCount + 1))

/-- The raw visual track: one window per image. -/
def rawVisualSlots (totalDuration : ℚ) (imageCount : ℕ) : List (ℚ × ℚ) :=
  (List.range imageCount).map (rawVisualSlot totalDuration imageCount)

/-- The visible window of image `i`: the raw window truncated at the audio
duration by `-shortest`. -/
def renderedVisualSlots (totalDuration : ℚ) (imageCount : ℕ) : List (ℚ × ℚ) :=
  (rawVisualSlots totalDuration imageCount).map
    (fun w => (min w.1 totalDuration, min w.2 totalDuration))

/-- Statement of claim C3 at a given total duration and image count: every
rendered slot spans exactly `D / N`, the first starts at 0 and the last ends
at `D`. -/
def visualPartitionClaim (totalDuration : ℚ) (imageCount : ℕ) : Prop :=
  (∀ w ∈ renderedVisualSlots totalDuration imageCount,
    w.2 - w.1 = totalDuration / imageCount) ∧
  ((renderedVisualSlots totalDuration imageCount).head?.map Prod.fst = some 0) ∧
  ((renderedVisualSlots totalDuration imageCount).getLast?.map Prod.snd = some totalDuration)

/-! ## Caption text sanitizer of `createAdvancedVideo`
(enhancedVideoProcessor.ts lines 240-249)

```
let cleanText = segment.text
  .replace(/['"]/g, '')
  .replace(/[^\w\s\.\!\?\-]/g, ' ')
  .replace(/\s+/g, ' ')
  .trim();
if (cleanText.length > 55) cleanText = cleanText.substring(0, 52) + "...";
```

The four regex passes are modelled character-wise on `List Char`; `\w` and
`\s` are the ASCII classes matched by the JavaScript regexes. -/

/-- A double quote character (written via its code point). -/
def dquote : Char := Char.ofNat 34

/-- The JavaScript `\w` class: ASCII letters, digits and underscore. -/
def isWordChar (c : Char) : Bool :=
  c.isAlpha || c.isDigit || c = '_'

/-- The JavaScript `\s` class (ASCII part): space, tab, line feed, carriage
return, vertical tab, form feed. -/
def isJsWs (c : Char) : Bool :=
  c = ' ' || c = '\t' || c = '\n' || c = '\r' || c = Char.ofNat 11 || c = Char.ofNat 12

/-- Characters kept by the second pass: `[\w\s.!?-]`.  A comma is not in the
class. -/
def isAllowedChar (c : Char) : Bool :=
  isWordChar c || isJsWs c || c = '.' || c = '!' || c = '?' || c = '-'

/-- First pass: `.replace(/['"]/g, '')`. -/
def removeQuotes (l : List Char) : List Char :=
  l.filter (fun c => !(c = squote || c = dquote))

/-- Second pass: `.replace(/[^\w\s.!?-]/g, ' ')` replaces every character
outside the class with a space. -/
def replaceDisallowed (l : List Char) : List Char :=
  l.map (fun c => if isAllowedChar c then c else ' ')

/-- Third pass: `.replace(/\s+/g, ' ')` collapses each maximal whitespace run
to a single space.  The boolean records whether the previous character was
whitespace. -/
def collapseWsAux : Bool → List Char → List Char
  | _, [] => []
  | prevWs, c :: rest =>
    if isJsWs c then
      if prevWs then collapseWsAux true rest
      else ' ' :: collapseWsAux true rest
    else
      c :: collapseWsAux false rest

def collapseWs (l : List Char) : List Char :=
  collapseWsAux false l

/-- Trailing half of `.trim()`. -/
def dropTrailingWs : List Char → List Char
  | [] => []
  | c :: rest =>
    match dropTrailingWs rest with
    | [] => if isJsWs c then [] else [c]
    | r => c :: r

/-- `.trim()`: remove leading and trailing whitespace. -/
def trimWs (l : List Char) : List Char :=
  dropTrailingWs (l.dropWhile isJsWs)

/-- The final truncation: texts longer than 55 characters are cut to their
first 52 characters plus an ellipsis. -/
def truncateCaption (l : List Char) : List Char :=
  if l.length > 55 then l.take 52 ++ ['.', '.', '.'] else l

def cleanTextList (l : List Char) : List Char :=
  truncateCaption (trimWs (collapseWs (replaceDisallowed (removeQuotes l))))

/-- The caption sanitizer applied to `segment.text`. -/
def cleanText (s : String) : String :=
  String.mk (cleanTextList s.data)

/-! ## Subtitle line builder (`createSubtitleSegments`,
subtitleProcessor.ts lines 42-77)

The text of each script segment is split on the space character; words are
greedily packed into lines of at most 60 characters; the segment's duration
is divided evenly across its lines, advancing a running `currentTime`. -/

structure ScriptSeg where
  text : String
  duration : ℚ
deriving DecidableEq

structure SubtitleSegment where
  startTime : ℚ
  endTime : ℚ
  text : String
deriving DecidableEq

/-- JavaScript `String.prototype.split` with a one-character separator class,
written character-wise: the (possibly empty) chunks between separator
occurrences, in order. -/
def splitChars (p : Char → Bool) : List Char → List (List Char)
  | [] => [[]]
  | c :: rest =>
    if p c then
      [] :: splitChars p rest
    else
      match splitChars p rest with
      | [] => [[c]]
      | w :: ws => (c :: w) :: ws

/-- `segment.text.split(' ')`. -/
def splitWords (s : String) : List String :=
  (splitChars (fun c => c = ' ') s.data).map String.mk

/-- The word-packing loop: `currentLine` starts empty; a word is appended when
`(currentLine + ' ' + word).length <= 60`, otherwise the non-empty
`currentLine` is pushed and the word starts a new line; a final non-empty
`currentLine` is pushed after the loop. -/
def buildLinesAux : List String → String → List String
  | [], currentLine => if currentLine = "" then [] else [currentLine]
  | w :: ws, currentLine =>
    if (currentLine ++ " " ++ w).length ≤ 60 then
      buildLinesAux ws (if currentLine = "" then w else currentLine ++ " " ++ w)
    else
      (if currentLine = "" then [] else [currentLine]) ++ buildLinesAux ws w

/-- The display lines produced for one segment's text. -/
def splitIntoLines (text : String) : List String :=
  buildLinesAux (splitWords text) ""

/-- The inner `lines.forEach`: each line becomes one subtitle entry of length
`lineDuration`, advancing the running time. -/
def emitLines (t lineDuration : ℚ) : List String → List SubtitleSegment
  | [] => []
  | l :: ls =>
    ⟨t, t + lineDuration, l⟩ :: emitLines (t + lineDuration) lineDuration ls

/-- The outer `scriptSegments.forEach` with running `currentTime`.  When a
segment produces no lines, `currentTime` is not advanced (the `forEach` body
that adds `lineDuration` never runs). -/
def createSubtitleSegmentsFrom : List ScriptSeg → ℚ → List SubtitleSegment
  | [], _ => []
  | seg :: rest, t =>
    emitLines t (seg.duration / (splitIntoLines seg.text).length) (splitIntoLines seg.text) ++
      createSubtitleSegmentsFrom rest
        (t + (splitIntoLines seg.text).length *
          (seg.duration / (splitIntoLines seg.text).length))

/-- `createSubtitleSegments(scriptSegments, startTime = 0)`. -/
def createSubtitleSegments (scriptSegments : List ScriptSeg) (startTime : ℚ) :
    List SubtitleSegment :=
  createSubtitleSegmentsFrom scriptSegments startTime

/-- The whitespace-separated words of a text, as the claim's hypothesis reads
them: maximal runs of non-whitespace characters. -/
def whitespaceWords (s : String) : List String :=
  ((splitChars (fun c => c.isWhitespace) s.data).map String.mk).filter
    (fun w => w ≠ "")

/-- A block of caption entries is an equal partition of the window starting at
`t0` of length `d`: it is non-empty, its windows all have length `d` divided
by the block length, consecutive windows are adjacent, the first starts at
`t0` and the last ends at `t0 + d`. -/
def adjacentEntries : List SubtitleSegment → Prop
  | a :: b :: rest => a.endTime = b.startTime ∧ adjacentEntries (b :: rest)
  | _ => True

def isEqualPartition (b : List SubtitleSegment) (t0 d : ℚ) : Prop :=
  b ≠ [] ∧
  (∀ e ∈ b, e.endTime - e.startTime = d / b.length) ∧
  adjacentEntries b ∧
  (b.head?.map SubtitleSegment.startTime = some t0) ∧
  (b.getLast?.map SubtitleSegment.endTime = some (t0 + d))

/-- Sum of the durations of the first `j` segments: the window start the claim
assigns to segment `j`. -/
def segWindowStart (segs : List ScriptSeg) (j : ℕ) : ℚ :=
  ((segs.take j).map ScriptSeg.duration).sum

/-- Conclusion of claim C10 at a given segment list: every produced line has
at most 60 characters and the produced entries split into one block per
segment, block `j` being an equal partition of segment `j`'s time window. -/
def subtitleWrapConclusion (segs : List ScriptSeg) : Prop :=
  (∀ e ∈ createSubtitleSegments segs 0, e.text.length ≤ 60) ∧
  ∃ blocks : List (List SubtitleSegment),
    createSubtitleSegments segs 0 = blocks.flatten ∧
    blocks.length = segs.length ∧
    ∀ j : Fin segs.length, ∀ hj : (j : ℕ) < blocks.length,
      isEqualPartition (blocks.get ⟨j, hj⟩) (segWindowStart segs j)
        (segs.get j).duration

/-- Statement of claim C10 at a given segment list: if every whitespace
separated word of every segment text has at most 60 characters, the
conclusion above holds. -/
def subtitleWrapClaim (segs : List ScriptSeg) : Prop :=
  (∀ seg ∈ segs, ∀ w ∈ whitespaceWords seg.text, w.length ≤ 60) →
    subtitleWrapConclusion segs

/-- The per-segment blocks of display lines, each segment's window starting
where the previous segment's full duration ends. -/
def specBlocksFrom : List ScriptSeg → ℚ → List (List SubtitleSegment)
  | [], _ => []
  | seg :: rest, t =>
    emitLines t (seg.duration / (splitIntoLines seg.text).length)
        (splitIntoLines seg.text) ::
      specBlocksFrom rest (t + seg.duration)

/-! ## Auxiliary predicates used by the theorems below -/

/-- Consecutive subtitle-timing entries are adjacent in time. -/
def adjacentSubEntries : List SubEntry → Prop
  | a :: b :: rest => a.endTime = b.startTime ∧ adjacentSubEntries (b :: rest)
  | _ => True

/-- No two consecutive whitespace characters. -/
def noDoubleWs : List Char → Prop
  | a :: b :: rest => (isJsWs a = false ∨ isJsWs b = false) ∧ noDoubleWs (b :: rest)
  | _ => True

/-- The first character, if any, is not whitespace. -/
def headNotWs (l : List Char) : Prop :=
  ∀ c, l.head? = some c → isJsWs c = false

/-- The last character, if any, is not whitespace. -/
def lastNotWs (l : List Char) : Prop :=
  ∀ c, l.getLast? = some c → isJsWs c = false

/-- Characters that can appear in a sanitized caption: kept characters that
are not whitespace, plus the plain space. -/
def normalChar (c : Char) : Bool :=
  isWordChar c || c = '.' || c = '!' || c = '?' || c = '-' || c = ' '

/-- Shape of every sanitizer output: only normal characters, no whitespace
runs, trimmed at both ends, at most 55 characters. -/
def cleanCaption (l : List Char) : Prop :=
  (∀ c ∈ l, normalChar c = true) ∧ noDoubleWs l ∧ headNotWs l ∧ lastNotWs l ∧
    l.length ≤ 55

/-- The probed segments of a job in which every ffprobe call succeeded and
returned the corresponding measured duration. -/
def measuredSegs (scripts : List (String × ℚ)) (durs : List ℚ) : List ProbedSeg :=
  List.zipWith (fun s d => ⟨s.1, s.2, 0, some d⟩) scripts durs

/-- The visual-timeline facts that actually hold of `createAdvancedVideo`:
one window per image, each raw window spanning `D/N + 1` (the `-t` value of
line 207), windows adjacent in image order, the first starting at 0, and the
`-shortest` truncation ending the visible track exactly at the narration
duration `D`. -/
def visualSlotsAmendedProp (D : ℚ) (N : ℕ) : Prop :=
  (rawVisualSlots D N).length = N ∧
  (∀ w ∈ rawVisualSlots D N, w.2 - w.1 = durationPerImage D N + 1) ∧
  (∀ i : ℕ, (rawVisualSlot D N i).2 = (rawVisualSlot D N (i + 1)).1) ∧
  ((rawVisualSlots D N).head?.map Prod.fst = some 0) ∧
  ((renderedVisualSlots D N).getLast?.map Prod.snd = some D)

/-- The audio-assembly facts that actually hold of the two `processAudio`
implementations on two or more clips: the enhanced one spawns a single
concat-demuxer invocation over the list file, re-encoding its output to
16-bit PCM at 44.1 kHz with no per-clip pass; the basic one normalizes every
clip to mono 16-bit PCM 44.1 kHz in index order and then concatenates with
the re-encoding `concat` audio filter. -/
def audioAssemblyAmendedProp (segs : List String)
    (listFile outPath outDir : String) : Prop :=
  (enhancedProcessAudioInvocations segs listFile outPath).length = 1 ∧
  (∀ cmd ∈ enhancedProcessAudioInvocations segs listFile outPath,
    "-f" ∈ cmd ∧ "concat" ∈ cmd ∧ listFile ∈ cmd ∧ "pcm_s16le" ∈ cmd ∧
      "44100" ∈ cmd) ∧
  (∃ norms finalCmd,
    basicProcessAudioInvocations segs outDir = norms ++ [finalCmd] ∧
    norms.length = segs.length ∧
    (∀ i : Fin segs.length, ∀ hi : (i : ℕ) < norms.length,
      isMonoNormalizeCmd (norms.get ⟨i, hi⟩) (segs.get i)) ∧
    "-filter_complex" ∈ finalCmd ∧ "pcm_s16le" ∈ finalCmd)

/-! ## Theorems -/

/-- C1: the claim requires a probe failure to abort the job with a probe
error.  The code instead catches the rejection of `getAudioDuration` and
silently keeps the planned script duration: a segment whose ffprobe exits
non-zero (or whose output does not parse) contributes its planned duration to
the caption timing, and the pipeline completes normally. -/
theorem c1_probe_failure_substitutes_planned_duration :
    (∀ text : String, ∀ planned : ℚ,
      segDuration ⟨text, planned, 1, none⟩ = planned) ∧
    (∀ text : String, ∀ planned : ℚ,
      segDuration ⟨text, planned, 0, none⟩ = planned) ∧
    buildSubtitleData [⟨"intro", 10, 1, none⟩] = [⟨"intro", 0, 10⟩] := by
  refine ⟨fun text planned => rfl, fun text planned => rfl, ?_⟩
  simp [buildSubtitleData, buildSubtitleDataFrom, segDuration, getAudioDuration]

/-- C4 counterexample: a job whose generation is rejected by the global
10-minute timer is marked `failed`, not `timed_out`; moreover the rendered
output file is not among the tracked temp files handed to cleanup. -/
theorem c4_timeout_counterexample :
    (generateVideoContentFinal timeoutOutcome).status = "failed" ∧
    (generateVideoContentFinal timeoutOutcome).status ≠ "timed_out" ∧
    videoTempPath "job1" ∉ trackedTempFiles "job1" 3 := by
  refine ⟨rfl, by decide, by decide⟩

/-- C4 amended: on timeout the job ends in the terminal status `failed` with
the timeout message as its error message, and `cleanupTempFiles` runs on the
tracked temp files (the rendered output video is not tracked). -/
theorem c4_timeout_marks_failed_and_cleans_tracked_files :
    generateVideoContentFinal timeoutOutcome =
      ⟨"failed", some timeoutMessage, true⟩ ∧
    (∀ videoId : String, ∀ n : ℕ,
      videoTempPath videoId ∉ trackedTempFiles videoId n) := by
  refine ⟨rfl, fun videoId n hmem => ?_⟩
  simp only [trackedTempFiles, List.mem_append, List.mem_map, List.mem_range] at hmem
  rcases hmem with ⟨i, _, hi⟩ | ⟨i, _, hi⟩ <;>
  · apply congrArg (fun s => s.data.reverse) at hi
    simp [imageTempPath, audioTempPath, videoTempPath, String.data_append] at hi

/-- C7 counterexample: on the success path of `generateVideoContent` no
cleanup runs at all (`cleanupTempFiles` is called only in the `catch`
branch), so intermediate files are not removed on every exit path. -/
theorem c7_success_path_skips_cleanup :
    (generateVideoContentFinal (Except.ok ())).cleanupCalled = false := rfl

/-- C7 amended: the tracked intermediate files are cleaned on the failure
path only; on success they are retained.  The enhanced assembler's concat
list file is removed whatever the exit code; the basic assembler's normalized
intermediates are removed only when the concatenation succeeds. -/
theorem c7_cleanup_only_on_failure_path :
    (∀ msg : String,
      (generateVideoContentFinal (Except.error msg)).cleanupCalled = true) ∧
    (generateVideoContentFinal (Except.ok ())).cleanupCalled = false ∧
    (∀ code : Int, enhancedListFileCleaned code = true) ∧
    basicNormFilesCleaned true = true ∧
    basicNormFilesCleaned false = false :=
  ⟨fun _ => rfl, rfl, fun _ => rfl, rfl, rfl⟩

/-- C8: when the primary Revideo path fails (audio concatenation or render
rejects), the catch block runs the enhanced FFmpeg backend; the job's outcome
is the fallback's outcome, and when the fallback succeeds the job completes
instead of failing. -/
theorem c8_primary_failure_falls_back (o : RevideoOutcomes) (e : String)
    (hprimary : revideoPrimary o = Except.error e) :
    createVideoWithRevideoRun o = o.enhancedCreate ∧
    (o.enhancedCreate = Except.ok () → createVideoWithRevideoRun o = Except.ok ()) := by
  have hrun : createVideoWithRevideoRun o = o.enhancedCreate := by
    unfold createVideoWithRevideoRun
    rw [hprimary]
  exact ⟨hrun, fun hok => hrun.trans hok⟩

/-- Witness for C8 at a concrete job: the Revideo render rejects with a
dependency error, the enhanced backend succeeds, and the job completes. -/
theorem c8_primary_failure_falls_back_witness :
    revideoPrimary ⟨Except.ok "final_audio.wav", Except.error "browser missing",
      Except.ok ()⟩ = Except.error "browser missing" ∧
    createVideoWithRevideoRun ⟨Except.ok "final_audio.wav",
      Except.error "browser missing", Except.ok ()⟩ = Except.ok () :=
  ⟨rfl,
    (c8_primary_failure_falls_back
      ⟨Except.ok "final_audio.wav", Except.error "browser missing", Except.ok ()⟩
      "browser missing" rfl).2 rfl⟩

/-- C9: with an empty image list or an empty audio-segment list, every
`createVideo` entry point settles on the rejection
`No assets provided for video creation` and attempts no audio processing and
no encoder invocation. -/
theorem c9_empty_assets_rejected (images audioSegments : List String)
    (processAudioOutcome advancedOutcome basicOutcome : Except String Unit)
    (outPath : String)
    (hempty : images = [] ∨ audioSegments = []) :
    enhancedCreateVideoRun images audioSegments processAudioOutcome advancedOutcome
        outPath = (Except.error noAssetsMessage, []) ∧
    basicCreateVideoRun images audioSegments processAudioOutcome basicOutcome
        outPath = (Except.error noAssetsMessage, []) := by
  have hc : images.length = 0 ∨ audioSegments.length = 0 := by
    rcases hempty with h | h <;> simp [h]
  constructor
  · unfold enhancedCreateVideoRun
    rw [if_pos hc]
  · unfold basicCreateVideoRun
    rw [if_pos hc]

/-- Witness for C9: concrete call with images present but no audio. -/
theorem c9_empty_assets_rejected_witness :
    ((["img0.jpg"] : List String) = [] ∨ ([] : List String) = []) ∧
    enhancedCreateVideoRun ["img0.jpg"] [] (Except.ok ()) (Except.ok ())
      "video.mp4" = (Except.error noAssetsMessage, []) :=
  ⟨Or.inr rfl,
    (c9_empty_assets_rejected ["img0.jpg"] [] (Except.ok ()) (Except.ok ())
      (Except.ok ()) "video.mp4" (Or.inr rfl)).1⟩

theorem buildSubtitleDataFrom_length (segs : List ProbedSeg) (t : ℚ) :
    (buildSubtitleDataFrom t segs).length = segs.length := by
  induction segs generalizing t with
  | nil => rfl
  | cons s rest ih => simp [buildSubtitleDataFrom, ih]

theorem buildSubtitleDataFrom_adjacent (segs : List ProbedSeg) (t : ℚ) :
    adjacentSubEntries (buildSubtitleDataFrom t segs) := by
  induction segs generalizing t with
  | nil => trivial
  | cons s rest ih =>
    cases rest with
    | nil => trivial
    | cons s2 r2 =>
      exact ⟨rfl, ih (t + segDuration s)⟩

theorem getLast?_cons_of_ne_nil {α : Type} (a : α) (l : List α) (h : l ≠ []) :
    (a :: l).getLast? = l.getLast? := by
  cases l with
  | nil => exact absurd rfl h
  | cons b t => rfl

theorem buildSubtitleDataFrom_last (segs : List ProbedSeg) (t : ℚ) (h : segs ≠ []) :
    (buildSubtitleDataFrom t segs).getLast?.map SubEntry.endTime =
      some (t + (segs.map segDuration).sum) := by
  induction segs generalizing t with
  | nil => exact absurd rfl h
  | cons s rest ih =>
    cases rest with
    | nil => simp [buildSubtitleDataFrom]
    | cons s2 r2 =>
      show (SubEntry.mk s.text t (t + segDuration s) ::
        buildSubtitleDataFrom (t + segDuration s) (s2 :: r2)).getLast?.map
          SubEntry.endTime = _
      rw [getLast?_cons_of_ne_nil _ _ (by rw [buildSubtitleDataFrom]; exact List.cons_ne_nil _ _)]
      rw [ih (t + segDuration s) (List.cons_ne_nil _ _)]
      simp [List.sum_cons, add_assoc]

theorem adjacentSubEntries_get (l : List SubEntry) (h : adjacentSubEntries l) :
    ∀ i : ℕ, ∀ hi : i + 1 < l.length,
      (l.get ⟨i, by omega⟩).endTime = (l.get ⟨i + 1, hi⟩).startTime := by
  induction l with
  | nil => intro i hi; simp at hi
  | cons a l ih =>
    intro i hi
    cases l with
    | nil => simp at hi
    | cons b t =>
      cases i with
      | zero => exact h.1
      | succ j =>
        exact ih h.2 j (by simpa using hi)

theorem measuredSegs_map (scripts : List (String × ℚ)) (durs : List ℚ)
    (hlen : scripts.length = durs.length) :
    (measuredSegs scripts durs).map segDuration = durs := by
  induction scripts generalizing durs with
  | nil =>
    cases durs with
    | nil => rfl
    | cons d ds => simp at hlen
  | cons s ss ih =>
    cases durs with
    | nil => simp at hlen
    | cons d ds =>
      have hd : segDuration ⟨s.1, s.2, 0, some d⟩ = d := rfl
      simp only [measuredSegs, List.zipWith_cons_cons, List.map_cons] at *
      rw [hd, ih ds (by simpa using hlen)]

/-- C2: for equally long script and measured-duration lists (N ≥ 1), the
subtitle timing data built by `generateVideoContent` has one entry per
segment, starts at 0, is contiguous, and ends exactly at the sum of the
measured durations. -/
theorem c2_caption_contiguity (scripts : List (String × ℚ)) (durs : List ℚ)
    (hlen : scripts.length = durs.length) (hpos : 1 ≤ durs.length) :
    (buildSubtitleData (measuredSegs scripts durs)).length = durs.length ∧
    (buildSubtitleData (measuredSegs scripts durs)).head?.map SubEntry.startTime =
      some 0 ∧
    (∀ i : ℕ, ∀ hi : i + 1 < (buildSubtitleData (measuredSegs scripts durs)).length,
      ((buildSubtitleData (measuredSegs scripts durs)).get ⟨i, by omega⟩).endTime =
        ((buildSubtitleData (measuredSegs scripts durs)).get ⟨i + 1, hi⟩).startTime) ∧
    (buildSubtitleData (measuredSegs scripts durs)).getLast?.map SubEntry.endTime =
      some durs.sum := by
  have hmlen : (measuredSegs scripts durs).length = durs.length := by
    simp [measuredSegs, hlen]
  refine ⟨?_, ?_, ?_, ?_⟩
  · rw [buildSubtitleData, buildSubtitleDataFrom_length, hmlen]
  · cases scripts with
    | nil =>
      cases durs with
      | nil => simp at hpos
      | cons d ds => simp at hlen
    | cons s ss =>
      cases durs with
      | nil => simp at hpos
      | cons d ds => rfl
  · exact adjacentSubEntries_get _ (buildSubtitleDataFrom_adjacent _ 0)
  · have hne : measuredSegs scripts durs ≠ [] := by
      intro hnil
      rw [hnil] at hmlen
      simp at hmlen
      omega
    rw [buildSubtitleData, buildSubtitleDataFrom_last _ 0 hne,
      measuredSegs_map scripts durs hlen, zero_add]

/-- Witness for C2 at the end-to-end scenario of §8: measured durations 9.2,
11.0, 9.8 give contiguous captions ending at 30. -/
theorem c2_caption_contiguity_witness :
    (([("s0", (10 : ℚ)), ("s1", 10), ("s2", 10)] : List (String × ℚ)).length =
        ([92/10, 11, 98/10] : List ℚ).length ∧
      1 ≤ ([92/10, 11, 98/10] : List ℚ).length) ∧
    ((buildSubtitleData (measuredSegs [("s0", 10), ("s1", 10), ("s2", 10)]
        [92/10, 11, 98/10])).length = ([92/10, 11, 98/10] : List ℚ).length ∧
      (buildSubtitleData (measuredSegs [("s0", 10), ("s1", 10), ("s2", 10)]
        [92/10, 11, 98/10])).head?.map SubEntry.startTime = some 0 ∧
      (∀ i : ℕ, ∀ hi : i + 1 < (buildSubtitleData (measuredSegs
          [("s0", 10), ("s1", 10), ("s2", 10)] [92/10, 11, 98/10])).length,
        ((buildSubtitleData (measuredSegs [("s0", 10), ("s1", 10), ("s2", 10)]
          [92/10, 11, 98/10])).get ⟨i, by omega⟩).endTime =
          ((buildSubtitleData (measuredSegs [("s0", 10), ("s1", 10), ("s2", 10)]
            [92/10, 11, 98/10])).get ⟨i + 1, hi⟩).startTime) ∧
      (buildSubtitleData (measuredSegs [("s0", 10), ("s1", 10), ("s2", 10)]
        [92/10, 11, 98/10])).getLast?.map SubEntry.endTime =
        some (([92/10, 11, 98/10] : List ℚ).sum)) :=
  ⟨⟨rfl, by norm_num⟩,
    c2_caption_contiguity [("s0", 10), ("s1", 10), ("s2", 10)] [92/10, 11, 98/10]
      rfl (by norm_num)⟩

/-- C3 counterexample: with 2 images and a 10-second narration the claimed
equal partition fails — the first image's window is `[0, 6)` (duration
`10/2 + 1 = 6`, not `10/2 = 5`), because every looped image input is given
`-t durationPerImage + 1` and the output is only truncated globally by
`-shortest`. -/
theorem c3_visual_partition_counterexample :
    ¬ visualPartitionClaim 10 2 ∧
    renderedVisualSlots 10 2 = [(0, 6), (6, 10)] := by
  have hslots : renderedVisualSlots 10 2 = [(0, 6), (6, 10)] := by
    norm_num [renderedVisualSlots, rawVisualSlots, rawVisualSlot, durationPerImage,
      List.range_succ, min_def]
  refine ⟨?_, hslots⟩
  intro hclaim
  have h6 := hclaim.1 (0, 6) (by rw [hslots]; exact List.mem_cons_self _ _)
  norm_num at h6

/-- C3 amended: each of the N images receives a window of `D/N + 1` seconds
(not `D/N`), laid end to end from 0 in image order; the `-shortest` flag
truncates the rendered track exactly at the narration duration `D`. -/
theorem c3_visual_slots_amended (D : ℚ) (N : ℕ) (_hD : 0 < D) (hN : 1 ≤ N) :
    visualSlotsAmendedProp D N := by
  have hN0 : 0 < N := hN
  have hNQ : (0 : ℚ) < (N : ℚ) := by exact_mod_cast hN0
  have hNne : (N : ℚ) ≠ 0 := ne_of_gt hNQ
  refine ⟨by simp [rawVisualSlots], ?_, ?_, ?_, ?_⟩
  · intro w hw
    simp only [rawVisualSlots, List.mem_map, List.mem_range] at hw
    obtain ⟨i, _, rfl⟩ := hw
    simp only [rawVisualSlot, durationPerImage]
    ring
  · intro i
    simp only [rawVisualSlot]
    push_cast
    ring
  · obtain ⟨m, rfl⟩ : ∃ m, N = m + 1 := ⟨N - 1, by omega⟩
    rw [rawVisualSlots, List.range_succ_eq_map]
    simp [rawVisualSlot]
  · have hlen : (renderedVisualSlots D N).length = N := by
      simp [renderedVisualSlots, rawVisualSlots]
    rw [List.getLast?_eq_getElem?, hlen]
    have hidx : N - 1 < N := by omega
    rw [renderedVisualSlots, rawVisualSlots, List.getElem?_map, List.getElem?_map,
      List.getElem?_range hidx]
    have hcast : ((N - 1 : ℕ) : ℚ) + 1 = (N : ℚ) := by
      push_cast [Nat.cast_sub hN]
      ring
    have htot : (((N - 1 : ℕ) : ℚ) + 1) * (durationPerImage D N + 1) = D + N := by
      rw [hcast, durationPerImage, mul_add, mul_one, mul_div_cancel₀ D hNne]
    simp only [Option.map_some', rawVisualSlot]
    rw [htot]
    have hmin : min (D + (N : ℚ)) D = D := min_eq_right (by linarith)
    rw [hmin]

/-- Witness for C3 amended at D = 10, N = 2. -/
theorem c3_visual_slots_amended_witness :
    ((0 : ℚ) < 10 ∧ 1 ≤ 2) ∧ visualSlotsAmendedProp 10 2 :=
  ⟨⟨by norm_num, by norm_num⟩, c3_visual_slots_amended 10 2 (by norm_num) (by norm_num)⟩

/-- C6 counterexample at the two-clip list `["a.mp3", "b.mp3"]`: the enhanced
assembler spawns one single invocation (so there is no per-clip normalization
pass before concatenating), and the basic assembler's concatenation is the
re-encoding `concat` filter, not a demuxer-level concatenation. -/
theorem c6_audio_assembly_counterexample :
    ¬ assembleMatchesClaim (enhancedProcessAudioInvocations ["a.mp3", "b.mp3"]
      "out/audio_list.txt" "out/final_audio.wav") ["a.mp3", "b.mp3"] ∧
    ¬ assembleMatchesClaim (basicProcessAudioInvocations ["a.mp3", "b.mp3"] "out")
      ["a.mp3", "b.mp3"] := by
  constructor
  · rintro ⟨norms, concatRun, heq, hlen, -, -⟩
    have hlength := congrArg List.length heq
    simp [enhancedProcessAudioInvocations, hlen] at hlength
  · rintro ⟨norms, concatRun, heq, hlen, -, hdemux⟩
    have hlast : (norms ++ [concatRun]).getLast? = some concatRun :=
      List.getLast?_concat _
    rw [← heq] at hlast
    have hinv : (basicProcessAudioInvocations ["a.mp3", "b.mp3"] "out").getLast? =
        some (basicConcatCmd [basicNormPath "out" 0, basicNormPath "out" 1]
          ("out" ++ "/processed_audio.wav")) := rfl
    rw [hinv] at hlast
    have hcr : concatRun = basicConcatCmd [basicNormPath "out" 0, basicNormPath "out" 1]
        ("out" ++ "/processed_audio.wav") := (Option.some_injective _ hlast).symm
    have hmem : "-filter_complex" ∈ concatRun := by
      rw [hcr]
      simp [basicConcatCmd]
    exact hdemux.2.2 hmem

/-- C6 amended: on two or more clips the enhanced assembler runs exactly one
ffmpeg invocation — a concat-demuxer read of the list file re-encoded to
16-bit PCM 44.1 kHz (original clips are not individually normalized first) —
while the basic assembler normalizes each clip to mono 16-bit PCM 44.1 kHz in
index order and then concatenates with the `concat` audio filter,
re-encoding the result. -/
theorem c6_audio_assembly_amended (segs : List String)
    (listFile outPath outDir : String) (h2 : 2 ≤ segs.length) :
    audioAssemblyAmendedProp segs listFile outPath outDir := by
  obtain ⟨a, b, rest, rfl⟩ : ∃ a b rest, segs = a :: b :: rest := by
    cases segs with
    | nil => simp at h2
    | cons a tail =>
      cases tail with
      | nil => simp at h2
      | cons b rest => exact ⟨a, b, rest, rfl⟩
  refine ⟨rfl, ?_, ?_⟩
  · intro cmd hcmd
    have : cmd = ["-y", "-f", "concat", "-safe", "0", "-i", listFile,
        "-c:a", "pcm_s16le", "-ar", "44100", "-af", "volume=0.8", outPath] := by
      simpa [enhancedProcessAudioInvocations] using hcmd
    subst this
    refine ⟨by simp, by simp, by simp, by simp, by simp⟩
  · refine ⟨(a :: b :: rest).enum.map
      (fun p => basicNormalizeCmd p.2 (basicNormPath outDir p.1)),
      basicConcatCmd ((List.range (a :: b :: rest).length).map (basicNormPath outDir))
        (outDir ++ "/processed_audio.wav"), rfl, by simp, ?_, ?_, ?_⟩
    · intro i hi
      have hget : (((a :: b :: rest).enum.map
          (fun p => basicNormalizeCmd p.2 (basicNormPath outDir p.1))).get ⟨i, hi⟩) =
          basicNormalizeCmd ((a :: b :: rest).get i) (basicNormPath outDir i) := by
        rw [List.get_eq_getElem, List.getElem_map, List.getElem_enum]
        rfl
      rw [hget]
      exact ⟨by simp [basicNormalizeCmd], by simp [basicNormalizeCmd],
        by simp [basicNormalizeCmd], by simp [basicNormalizeCmd],
        by simp [basicNormalizeCmd]⟩
    · simp [basicConcatCmd]
    · simp [basicConcatCmd]

/-- Witness for C6 amended at the two-clip list `["a.mp3", "b.mp3"]`. -/
theorem c6_audio_assembly_amended_witness :
    2 ≤ (["a.mp3", "b.mp3"] : List String).length ∧
    audioAssemblyAmendedProp ["a.mp3", "b.mp3"] "out/audio_list.txt"
      "out/final_audio.wav" "out" :=
  ⟨by norm_num,
    c6_audio_assembly_amended ["a.mp3", "b.mp3"] "out/audio_list.txt"
      "out/final_audio.wav" "out" (by norm_num)⟩

/-! ### Character-class and pipeline lemmas for the caption sanitizer -/

theorem isWordChar_not_ws {c : Char} (h : isWordChar c = true) : isJsWs c = false := by
  by_contra hws
  have hws2 : isJsWs c = true := by
    cases hb : isJsWs c
    · exact absurd hb hws
    · rfl
  simp only [isJsWs, Bool.or_eq_true, decide_eq_true_eq] at hws2
  rcases hws2 with ((((rfl | rfl) | rfl) | rfl) | rfl) | rfl <;> simp [isWordChar] at h

theorem normalChar_allowed {c : Char} (h : normalChar c = true) : isAllowedChar c = true := by
  simp only [normalChar, Bool.or_eq_true, decide_eq_true_eq] at h
  simp only [isAllowedChar, isJsWs, Bool.or_eq_true, decide_eq_true_eq]
  tauto

theorem normalChar_ws_space {c : Char} (h : normalChar c = true) (hws : isJsWs c = true) :
    c = ' ' := by
  simp only [normalChar, Bool.or_eq_true, decide_eq_true_eq] at h
  rcases h with ((((hw | rfl) | rfl) | rfl) | rfl) | rfl
  · exact absurd (isWordChar_not_ws hw) (by simp [hws])
  all_goals first
    | rfl
    | simp [isJsWs] at hws

theorem normalChar_not_quote {c : Char} (h : normalChar c = true) :
    (!(c = squote || c = dquote)) = true := by
  rcases eq_or_ne c squote with rfl | h1
  · exact absurd h (by decide)
  rcases eq_or_ne c dquote with rfl | h2
  · exact absurd h (by decide)
  simp [h1, h2]

theorem allowed_not_ws_normal {c : Char} (h : isAllowedChar c = true)
    (hws : isJsWs c = false) : normalChar c = true := by
  simp only [isAllowedChar, Bool.or_eq_true, decide_eq_true_eq] at h
  simp only [normalChar, Bool.or_eq_true, decide_eq_true_eq]
  rcases h with ((((hw | hj) | rfl) | rfl) | rfl) | rfl
  · tauto
  · rw [hj] at hws; cases hws
  all_goals tauto



theorem mem_replaceDisallowed {l : List Char} {c : Char} (h : c ∈ replaceDisallowed l) :
    isAllowedChar c = true := by
  simp only [replaceDisallowed, List.mem_map] at h
  obtain ⟨a, -, rfl⟩ := h
  by_cases ha : isAllowedChar a = true
  · simp [ha]
  · simp only [ha, Bool.false_eq_true, if_false]
    decide

theorem mem_collapseWsAux {c : Char} :
    ∀ (b : Bool) (l : List Char), c ∈ collapseWsAux b l →
      c = ' ' ∨ (c ∈ l ∧ isJsWs c = false)
  | b, [], h => by simp [collapseWsAux] at h
  | b, a :: rest, h => by
    by_cases ha : isJsWs a = true
    · cases b with
      | true =>
        simp only [collapseWsAux, ha, if_true] at h
        rcases mem_collapseWsAux true rest h with hc | ⟨hm, hw⟩
        · exact Or.inl hc
        · exact Or.inr ⟨List.mem_cons_of_mem _ hm, hw⟩
      | false =>
        simp only [collapseWsAux, ha, if_true] at h
        rcases List.mem_cons.mp h with rfl | h2
        · exact Or.inl rfl
        · rcases mem_collapseWsAux true rest h2 with hc | ⟨hm, hw⟩
          · exact Or.inl hc
          · exact Or.inr ⟨List.mem_cons_of_mem _ hm, hw⟩
    · have ha2 : isJsWs a = false := by
        cases hb : isJsWs a
        · rfl
        · exact absurd hb ha
      simp only [collapseWsAux, ha2, Bool.false_eq_true, if_false] at h
      rcases List.mem_cons.mp h with rfl | h2
      · exact Or.inr ⟨List.mem_cons_self _ _, ha2⟩
      · rcases mem_collapseWsAux false rest h2 with hc | ⟨hm, hw⟩
        · exact Or.inl hc
        · exact Or.inr ⟨List.mem_cons_of_mem _ hm, hw⟩

theorem head_collapseWsAux_true (l : List Char) :
    collapseWsAux true l = [] ∨
      ∃ d t, collapseWsAux true l = d :: t ∧ isJsWs d = false := by
  induction l with
  | nil => exact Or.inl rfl
  | cons a rest ih =>
    by_cases ha : isJsWs a = true
    · simpa only [collapseWsAux, ha, if_true] using ih
    · have ha2 : isJsWs a = false := by
        cases hb : isJsWs a
        · rfl
        · exact absurd hb ha
      exact Or.inr ⟨a, collapseWsAux false rest, by simp [collapseWsAux, ha2], ha2⟩

theorem noDoubleWs_cons_of_not_ws {c : Char} {l : List Char}
    (hc : isJsWs c = false) (h : noDoubleWs l) : noDoubleWs (c :: l) := by
  cases l with
  | nil => trivial
  | cons d t => exact ⟨Or.inl hc, h⟩

theorem noDoubleWs_cons_of_head {c : Char} {l : List Char}
    (hl : ∀ d, l.head? = some d → isJsWs d = false) (h : noDoubleWs l) :
    noDoubleWs (c :: l) := by
  cases l with
  | nil => trivial
  | cons d t => exact ⟨Or.inr (hl d rfl), h⟩

theorem noDoubleWs_collapseWsAux : ∀ (l : List Char) (b : Bool),
    noDoubleWs (collapseWsAux b l)
  | [], b => trivial
  | a :: rest, b => by
    by_cases ha : isJsWs a = true
    · cases b with
      | true =>
        simpa only [collapseWsAux, ha, if_true] using
          noDoubleWs_collapseWsAux rest true
      | false =>
        simp only [collapseWsAux, ha, if_true]
        refine noDoubleWs_cons_of_head ?_ (noDoubleWs_collapseWsAux rest true)
        intro d hd
        rcases head_collapseWsAux_true rest with hnil | ⟨e, t, het, hew⟩
        · rw [hnil] at hd; cases hd
        · rw [het] at hd
          cases hd
          exact hew
    · have ha2 : isJsWs a = false := by
        cases hb : isJsWs a
        · rfl
        · exact absurd hb ha
      simp only [collapseWsAux, ha2, Bool.false_eq_true, if_false]
      exact noDoubleWs_cons_of_not_ws ha2 (noDoubleWs_collapseWsAux rest false)

theorem noDoubleWs_tail {a : Char} {l : List Char} (h : noDoubleWs (a :: l)) :
    noDoubleWs l := by
  cases l with
  | nil => trivial
  | cons b t => exact h.2

theorem noDoubleWs_dropWhile (p : Char → Bool) (l : List Char) (h : noDoubleWs l) :
    noDoubleWs (l.dropWhile p) := by
  induction l with
  | nil => trivial
  | cons a rest ih =>
    by_cases hp : p a = true
    · rw [List.dropWhile_cons_of_pos hp]
      exact ih (noDoubleWs_tail h)
    · rw [List.dropWhile_cons_of_neg (by simpa using hp)]
      exact h

theorem noDoubleWs_append_left {l t : List Char} (h : noDoubleWs (l ++ t)) :
    noDoubleWs l := by
  induction l with
  | nil => trivial
  | cons a rest ih =>
    cases rest with
    | nil => trivial
    | cons b r2 =>
      refine ⟨h.1, ih h.2⟩

theorem dropTrailingWs_append : ∀ l : List Char, ∃ t, dropTrailingWs l ++ t = l
  | [] => ⟨[], rfl⟩
  | c :: rest => by
    obtain ⟨t, ht⟩ := dropTrailingWs_append rest
    cases hr : dropTrailingWs rest with
    | nil =>
      by_cases hc : isJsWs c = true
      · exact ⟨c :: rest, by simp [dropTrailingWs, hr, hc]⟩
      · have hc2 : isJsWs c = false := by
          cases hb : isJsWs c
          · rfl
          · exact absurd hb hc
        refine ⟨rest, ?_⟩
        simp [dropTrailingWs, hr, hc2]
    | cons x xs =>
      refine ⟨t, ?_⟩
      rw [hr] at ht
      simp only [dropTrailingWs, hr]
      rw [List.cons_append, ht]

theorem mem_dropTrailingWs {c : Char} {l : List Char} (h : c ∈ dropTrailingWs l) :
    c ∈ l := by
  obtain ⟨t, ht⟩ := dropTrailingWs_append l
  rw [← ht]
  exact List.mem_append_left _ h

theorem lastNotWs_dropTrailingWs : ∀ l : List Char, lastNotWs (dropTrailingWs l)
  | [] => by intro c hc; cases hc
  | a :: rest => by
    intro c hc
    cases hr : dropTrailingWs rest with
    | nil =>
      by_cases ha : isJsWs a = true
      · simp only [dropTrailingWs, hr, ha, if_true] at hc
        cases hc
      · have ha2 : isJsWs a = false := by
          cases hb : isJsWs a
          · rfl
          · exact absurd hb ha
        simp only [dropTrailingWs, hr, ha2, Bool.false_eq_true, if_false,
          List.getLast?_singleton] at hc
        cases hc
        exact ha2
    | cons x xs =>
      simp only [dropTrailingWs, hr] at hc
      rw [getLast?_cons_of_ne_nil a (x :: xs) (List.cons_ne_nil _ _)] at hc
      rw [← hr] at hc
      exact lastNotWs_dropTrailingWs rest c hc

theorem head?_dropTrailingWs {c : Char} : ∀ {l : List Char},
    (dropTrailingWs l).head? = some c → l.head? = some c
  | [], h => by cases h
  | a :: rest, h => by
    cases hr : dropTrailingWs rest with
    | nil =>
      by_cases ha : isJsWs a = true
      · rw [dropTrailingWs, hr] at h
        simp only [ha, if_true] at h
        cases h
      · have ha2 : isJsWs a = false := by
          cases hb : isJsWs a
          · rfl
          · exact absurd hb ha
        rw [dropTrailingWs, hr] at h
        simp only [ha2, Bool.false_eq_true, if_false, List.head?_cons] at h
        simpa using h
    | cons x xs =>
      rw [dropTrailingWs, hr] at h
      simpa using h

theorem headNotWs_dropWhile (l : List Char) :
    headNotWs (l.dropWhile isJsWs) := by
  induction l with
  | nil => intro c hc; cases hc
  | cons a rest ih =>
    intro c hc
    by_cases ha : isJsWs a = true
    · rw [List.dropWhile_cons_of_pos ha] at hc
      exact ih c hc
    · have ha2 : isJsWs a = false := by
        cases hb : isJsWs a
        · rfl
        · exact absurd hb ha
      rw [List.dropWhile_cons_of_neg (by simp [ha2])] at hc
      cases hc
      exact ha2



theorem removeQuotes_eq_self {l : List Char} (h : ∀ c ∈ l, normalChar c = true) :
    removeQuotes l = l :=
  List.filter_eq_self.mpr (fun c hc => normalChar_not_quote (h c hc))

theorem replaceDisallowed_eq_self {l : List Char} (h : ∀ c ∈ l, isAllowedChar c = true) :
    replaceDisallowed l = l := by
  induction l with
  | nil => rfl
  | cons a rest ih =>
    simp only [replaceDisallowed, List.map_cons]
    rw [if_pos (h a (List.mem_cons_self _ _))]
    have := ih (fun c hc => h c (List.mem_cons_of_mem _ hc))
    simp only [replaceDisallowed] at this
    rw [this]

theorem collapseWsAux_true_of_head {l : List Char}
    (h : ∀ d, l.head? = some d → isJsWs d = false) :
    collapseWsAux true l = collapseWsAux false l := by
  cases l with
  | nil => rfl
  | cons a rest =>
    have ha : isJsWs a = false := h a rfl
    simp [collapseWsAux, ha]

theorem collapseWsAux_false_eq_self : ∀ l : List Char,
    (∀ c ∈ l, isJsWs c = true → c = ' ') → noDoubleWs l →
      collapseWsAux false l = l
  | [], _, _ => rfl
  | a :: rest, hsp, hnd => by
    have ihrest := collapseWsAux_false_eq_self rest
      (fun c hc => hsp c (List.mem_cons_of_mem _ hc)) (noDoubleWs_tail hnd)
    by_cases ha : isJsWs a = true
    · have haspace : a = ' ' := hsp a (List.mem_cons_self _ _) ha
      have hrest_head : ∀ d, rest.head? = some d → isJsWs d = false := by
        intro d hd
        cases rest with
        | nil => cases hd
        | cons b t =>
          cases hd
          rcases hnd.1 with h1 | h2
          · rw [ha] at h1; cases h1
          · exact h2
      simp only [collapseWsAux, ha, if_true]
      rw [collapseWsAux_true_of_head hrest_head, ihrest, haspace]
      simp
    · have ha2 : isJsWs a = false := by
        cases hb : isJsWs a
        · rfl
        · exact absurd hb ha
      simp only [collapseWsAux, ha2, Bool.false_eq_true, if_false]
      rw [ihrest]

theorem dropWhile_eq_self_of_head {l : List Char}
    (h : ∀ c, l.head? = some c → isJsWs c = false) :
    l.dropWhile isJsWs = l := by
  cases l with
  | nil => rfl
  | cons a rest => exact List.dropWhile_cons_of_neg (by simp [h a rfl])

theorem dropTrailingWs_eq_self : ∀ l : List Char, lastNotWs l → dropTrailingWs l = l
  | [], _ => rfl
  | a :: rest, hlast => by
    cases rest with
    | nil =>
      have ha : isJsWs a = false := hlast a rfl
      simp [dropTrailingWs, ha]
    | cons b t =>
      have hrest : dropTrailingWs (b :: t) = b :: t := by
        refine dropTrailingWs_eq_self (b :: t) ?_
        intro c hc
        refine hlast c ?_
        rw [getLast?_cons_of_ne_nil a (b :: t) (List.cons_ne_nil _ _)]
        exact hc
      show (match dropTrailingWs (b :: t) with
        | [] => if isJsWs a = true then [] else [a]
        | r => a :: r) = a :: b :: t
      rw [hrest]

theorem truncateCaption_eq_self {l : List Char} (h : l.length ≤ 55) :
    truncateCaption l = l := by
  rw [truncateCaption, if_neg (by omega)]



theorem noDoubleWs_of_all_nonws : ∀ b : List Char,
    (∀ c ∈ b, isJsWs c = false) → noDoubleWs b
  | [], _ => trivial
  | [_], _ => trivial
  | x :: y :: r, h =>
    ⟨Or.inl (h x (List.mem_cons_self _ _)),
      noDoubleWs_of_all_nonws (y :: r)
        (fun c hc => h c (List.mem_cons_of_mem _ hc))⟩

theorem noDoubleWs_append_nonws : ∀ (a b : List Char), noDoubleWs a →
    (∀ c ∈ b, isJsWs c = false) → noDoubleWs (a ++ b)
  | [], b, _, hb => noDoubleWs_of_all_nonws b hb
  | [x], b, _, hb => by
    cases b with
    | nil => trivial
    | cons d t =>
      exact ⟨Or.inr (hb d (List.mem_cons_self _ _)),
        noDoubleWs_of_all_nonws (d :: t) hb⟩
  | x :: y :: r, b, h, hb =>
    ⟨h.1, noDoubleWs_append_nonws (y :: r) b h.2 hb⟩

theorem trimmed_mem {l : List Char} {c : Char}
    (h : c ∈ trimWs (collapseWs (replaceDisallowed (removeQuotes l)))) :
    normalChar c = true := by
  have h1 : c ∈ (collapseWs (replaceDisallowed (removeQuotes l))).dropWhile isJsWs :=
    mem_dropTrailingWs h
  have h2 : c ∈ collapseWs (replaceDisallowed (removeQuotes l)) := by
    have hsplit := List.takeWhile_append_dropWhile (p := isJsWs)
      (l := collapseWs (replaceDisallowed (removeQuotes l)))
    rw [← hsplit]
    exact List.mem_append_right _ h1
  rcases mem_collapseWsAux false _ h2 with rfl | ⟨hm, hw⟩
  · decide
  · exact allowed_not_ws_normal (mem_replaceDisallowed hm) hw

theorem trimmed_noDoubleWs (l : List Char) :
    noDoubleWs (trimWs (collapseWs (replaceDisallowed (removeQuotes l)))) := by
  obtain ⟨t, ht⟩ := dropTrailingWs_append
    ((collapseWs (replaceDisallowed (removeQuotes l))).dropWhile isJsWs)
  refine noDoubleWs_append_left (t := t) ?_
  rw [trimWs, ht]
  exact noDoubleWs_dropWhile _ _ (noDoubleWs_collapseWsAux _ false)

theorem trimmed_headNotWs (l : List Char) :
    headNotWs (trimWs (collapseWs (replaceDisallowed (removeQuotes l)))) := by
  intro c hc
  exact headNotWs_dropWhile _ c (head?_dropTrailingWs hc)

theorem head?_take_append {z b : List Char} {c : Char} (hlen : z.length > 55)
    (hc : (z.take 52 ++ b).head? = some c) : z.head? = some c := by
  cases z with
  | nil => simp at hlen
  | cons a rest =>
    simp only [List.take_succ_cons, List.cons_append, List.head?_cons] at hc
    exact hc

theorem cleanCaption_cleanTextList (l : List Char) : cleanCaption (cleanTextList l) := by
  set z := trimWs (collapseWs (replaceDisallowed (removeQuotes l))) with hz
  have hznorm : ∀ c ∈ z, normalChar c = true := fun c hc => trimmed_mem hc
  have hznd : noDoubleWs z := trimmed_noDoubleWs l
  have hzhead : headNotWs z := trimmed_headNotWs l
  have hzlast : lastNotWs z := lastNotWs_dropTrailingWs _
  have hform : cleanTextList l = truncateCaption z := rfl
  by_cases hlen : z.length > 55
  · have htake : (z.take 52).length = 52 := by
      rw [List.length_take]
      omega
    have hy : cleanTextList l = z.take 52 ++ ['.', '.', '.'] := by
      rw [hform, truncateCaption, if_pos hlen]
    rw [hy]
    refine ⟨?_, ?_, ?_, ?_, ?_⟩
    · intro c hc
      rcases List.mem_append.mp hc with hc1 | hc2
      · exact hznorm c (List.take_subset _ _ hc1)
      · have hcdot : c = '.' := by
          simpa using hc2
        subst hcdot
        decide
    · refine noDoubleWs_append_nonws _ _ ?_ ?_
      · have hsplit := List.take_append_drop 52 z
        exact noDoubleWs_append_left (t := z.drop 52) (by rw [hsplit]; exact hznd)
      · intro c hc
        have hcdot : c = '.' := by
          simpa using hc
        subst hcdot
        decide
    · intro c hc
      exact hzhead c (head?_take_append hlen hc)
    · intro c hc
      have : (z.take 52 ++ ['.', '.', '.']).getLast? = some '.' := by
        have hassoc : z.take 52 ++ ['.', '.', '.'] = (z.take 52 ++ ['.', '.']) ++ ['.'] := by
          simp
        rw [hassoc, List.getLast?_concat]
      rw [this] at hc
      cases hc
      decide
    · rw [List.length_append, htake]
      simp
  · have hy : cleanTextList l = z := by
      rw [hform, truncateCaption, if_neg hlen]
    rw [hy]
    exact ⟨hznorm, hznd, hzhead, hzlast, by omega⟩

theorem cleanTextList_eq_self {l : List Char} (h : cleanCaption l) :
    cleanTextList l = l := by
  obtain ⟨hnorm, hnd, hhead, hlast, hlen⟩ := h
  rw [cleanTextList, removeQuotes_eq_self hnorm,
    replaceDisallowed_eq_self (fun c hc => normalChar_allowed (hnorm c hc)),
    collapseWs,
    collapseWsAux_false_eq_self l
      (fun c hc hw => normalChar_ws_space (hnorm c hc) hw) hnd,
    trimWs, dropWhile_eq_self_of_head hhead, dropTrailingWs_eq_self l hlast,
    truncateCaption_eq_self hlen]

theorem cleanTextList_idem (l : List Char) :
    cleanTextList (cleanTextList l) = cleanTextList l :=
  cleanTextList_eq_self (cleanCaption_cleanTextList l)

theorem cleanText_idem (s : String) : cleanText (cleanText s) = cleanText s := by
  show String.mk (cleanTextList (cleanTextList s.data)) = String.mk (cleanTextList s.data)
  rw [cleanTextList_idem]

theorem cleanText_length (s : String) : (cleanText s).length ≤ 55 := by
  show (cleanTextList s.data).length ≤ 55
  exact (cleanCaption_cleanTextList s.data).2.2.2.2

/-- C5 counterexample: on the claim's own example the sanitizer yields
`He said Wow!! script`, not `He said Wow` (the `!!` is kept, `script` is kept
as word characters, and the removed `<`, `>`, `:` become spaces); moreover a
comma is not in the allow-list and is replaced by a space. -/
theorem c5_sanitizer_counterexample :
    cleanText "He said: \"Wow!!\" <script>" = "He said Wow!! script" ∧
    cleanText "He said: \"Wow!!\" <script>" ≠ "He said Wow" ∧
    cleanText "a,b" = "a b" :=
  ⟨by decide, by decide, by decide⟩

/-- C5 amended: the sanitizer removes quote characters, replaces every
character outside the allow-list (word characters, whitespace, `. ! ? -`;
comma excluded) with a space, collapses whitespace runs, trims, and truncates
texts longer than 55 characters to their first 52 characters plus an
ellipsis; it is idempotent, its output never exceeds 55 characters, and the
example input sanitizes to `He said Wow!! script`. -/
theorem c5_sanitizer_amended :
    (∀ s : String, cleanText (cleanText s) = cleanText s) ∧
    (∀ s : String, (cleanText s).length ≤ 55) ∧
    cleanText "He said: \"Wow!!\" <script>" = "He said Wow!! script" ∧
    cleanText "a,b" = "a b" :=
  ⟨cleanText_idem, cleanText_length, by decide, by decide⟩

/-! ### Lemmas for the subtitle line builder -/

theorem buildLinesAux_length_le : ∀ (ws : List String) (cl : String),
    cl.length ≤ 60 → (∀ w ∈ ws, w.length ≤ 60) →
      ∀ l ∈ buildLinesAux ws cl, l.length ≤ 60
  | [], cl, hcl, _, l, hl => by
    by_cases hne : cl = ""
    · simp [buildLinesAux, hne] at hl
    · rw [buildLinesAux, if_neg hne] at hl
      rcases List.mem_singleton.mp hl with rfl
      exact hcl
  | w :: ws, cl, hcl, hws, l, hl => by
    by_cases hcond : (cl ++ " " ++ w).length ≤ 60
    · rw [buildLinesAux, if_pos hcond] at hl
      refine buildLinesAux_length_le ws _ ?_
        (fun x hx => hws x (List.mem_cons_of_mem _ hx)) l hl
      by_cases hne : cl = ""
      · rw [if_pos hne]
        exact hws w (List.mem_cons_self _ _)
      · rw [if_neg hne]
        exact hcond
    · rw [buildLinesAux, if_neg hcond] at hl
      rcases List.mem_append.mp hl with hl1 | hl2
      · by_cases hne : cl = ""
        · rw [if_pos hne] at hl1
          cases hl1
        · rw [if_neg hne] at hl1
          rcases List.mem_singleton.mp hl1 with rfl
          exact hcl
      · exact buildLinesAux_length_le ws w (hws w (List.mem_cons_self _ _))
          (fun x hx => hws x (List.mem_cons_of_mem _ hx)) l hl2

theorem splitIntoLines_length_le (text : String)
    (h : ∀ w ∈ splitWords text, w.length ≤ 60) :
    ∀ l ∈ splitIntoLines text, l.length ≤ 60 :=
  buildLinesAux_length_le (splitWords text) "" (by simp) h



theorem string_ne_empty_of_append (cl w : String) : cl ++ " " ++ w ≠ "" := by
  intro heq
  have := congrArg String.length heq
  simp only [String.length_append] at this
  have h1 : (" " : String).length = 1 := by decide
  have h0 : ("" : String).length = 0 := by decide
  omega

theorem buildLinesAux_ne_nil : ∀ (ws : List String) (cl : String),
    (cl ≠ "" ∨ ∃ w ∈ ws, w ≠ "") → buildLinesAux ws cl ≠ []
  | [], cl, h => by
    rcases h with hcl | ⟨w, hw, -⟩
    · rw [buildLinesAux, if_neg hcl]
      exact List.cons_ne_nil _ _
    · cases hw
  | w :: ws, cl, h => by
    by_cases hcond : (cl ++ " " ++ w).length ≤ 60
    · rw [buildLinesAux, if_pos hcond]
      by_cases hne : cl = ""
      · rw [if_pos hne]
        refine buildLinesAux_ne_nil ws w ?_
        rcases h with hcl | ⟨x, hx, hxne⟩
        · exact absurd hne hcl
        · rcases List.mem_cons.mp hx with rfl | hx2
          · exact Or.inl hxne
          · exact Or.inr ⟨x, hx2, hxne⟩
      · rw [if_neg hne]
        exact buildLinesAux_ne_nil ws _ (Or.inl (string_ne_empty_of_append cl w))
    · rw [buildLinesAux, if_neg hcond]
      by_cases hne : cl = ""
      · rw [if_pos hne, List.nil_append]
        refine buildLinesAux_ne_nil ws w (Or.inl ?_)
        intro hweq
        rw [hne, hweq] at hcond
        exact hcond (by decide)
      · rw [if_neg hne]
        simp

theorem splitIntoLines_ne_nil (text : String)
    (h : ∃ w ∈ splitWords text, w ≠ "") : splitIntoLines text ≠ [] :=
  buildLinesAux_ne_nil (splitWords text) "" (Or.inr h)



theorem emitLines_length (t ld : ℚ) : ∀ lines : List String,
    (emitLines t ld lines).length = lines.length := by
  intro lines
  induction lines generalizing t with
  | nil => rfl
  | cons l ls ih => simp [emitLines, ih]

theorem emitLines_duration (ld : ℚ) : ∀ (lines : List String) (t : ℚ),
    ∀ e ∈ emitLines t ld lines, e.endTime - e.startTime = ld
  | [], t, e, he => by cases he
  | l :: ls, t, e, he => by
    rcases List.mem_cons.mp he with rfl | he2
    · simp
    · exact emitLines_duration ld ls (t + ld) e he2

theorem emitLines_adjacent (ld : ℚ) : ∀ (lines : List String) (t : ℚ),
    adjacentEntries (emitLines t ld lines)
  | [], _ => trivial
  | [_], _ => trivial
  | _ :: l2 :: ls, t => ⟨rfl, emitLines_adjacent ld (l2 :: ls) (t + ld)⟩

theorem emitLines_head (t ld : ℚ) (l : String) (ls : List String) :
    (emitLines t ld (l :: ls)).head?.map SubtitleSegment.startTime = some t := rfl

theorem emitLines_last (ld : ℚ) : ∀ (lines : List String) (t : ℚ), lines ≠ [] →
    (emitLines t ld lines).getLast?.map SubtitleSegment.endTime =
      some (t + lines.length * ld)
  | [], _, h => absurd rfl h
  | [l], t, _ => by simp [emitLines]
  | l :: l2 :: ls, t, _ => by
    show ((⟨t, t + ld, l⟩ : SubtitleSegment) ::
      emitLines (t + ld) ld (l2 :: ls)).getLast?.map SubtitleSegment.endTime = _
    rw [getLast?_cons_of_ne_nil _ _ (by rw [emitLines]; exact List.cons_ne_nil _ _)]
    rw [emitLines_last ld (l2 :: ls) (t + ld) (List.cons_ne_nil _ _)]
    congr 1
    simp only [List.length_cons]
    push_cast
    ring

theorem emitLines_text_mem {e : SubtitleSegment} {ld : ℚ} :
    ∀ (lines : List String) (t : ℚ), e ∈ emitLines t ld lines → e.text ∈ lines
  | [], _, he => by cases he
  | l :: ls, t, he => by
    rcases List.mem_cons.mp he with rfl | he2
    · exact List.mem_cons_self _ _
    · exact List.mem_cons_of_mem _ (emitLines_text_mem ls (t + ld) he2)

theorem emitLines_isEqualPartition (t d : ℚ) (lines : List String) (h : lines ≠ []) :
    isEqualPartition (emitLines t (d / lines.length) lines) t d := by
  have hlen : (emitLines t (d / lines.length) lines).length = lines.length :=
    emitLines_length _ _ lines
  have hL : (lines.length : ℚ) ≠ 0 := by
    have : lines.length ≠ 0 := by
      intro h0
      exact h (List.length_eq_zero.mp h0)
    exact_mod_cast this
  refine ⟨?_, ?_, emitLines_adjacent _ lines t, ?_, ?_⟩
  · intro he
    rw [← List.length_eq_zero, hlen, List.length_eq_zero] at he
    exact h he
  · intro e he
    rw [hlen]
    exact emitLines_duration _ lines t e he
  · cases lines with
    | nil => exact absurd rfl h
    | cons l ls => exact emitLines_head _ _ _ _
  · rw [emitLines_last _ lines t h]
    congr 1
    rw [mul_div_cancel₀ _ hL]



theorem createSubtitleSegmentsFrom_eq_flatten :
    ∀ (segs : List ScriptSeg) (t : ℚ),
      (∀ seg ∈ segs, splitIntoLines seg.text ≠ []) →
        createSubtitleSegmentsFrom segs t = (specBlocksFrom segs t).flatten
  | [], _, _ => rfl
  | seg :: rest, t, h => by
    have hlines : splitIntoLines seg.text ≠ [] := h seg (List.mem_cons_self _ _)
    have hL : ((splitIntoLines seg.text).length : ℚ) ≠ 0 := by
      have : (splitIntoLines seg.text).length ≠ 0 := by
        intro h0
        exact hlines (List.length_eq_zero.mp h0)
      exact_mod_cast this
    have hadv : (((splitIntoLines seg.text).length : ℚ)) *
        (seg.duration / (splitIntoLines seg.text).length) = seg.duration :=
      mul_div_cancel₀ _ hL
    rw [createSubtitleSegmentsFrom, specBlocksFrom, List.flatten_cons, hadv,
      createSubtitleSegmentsFrom_eq_flatten rest (t + seg.duration)
        (fun x hx => h x (List.mem_cons_of_mem _ hx))]

theorem specBlocksFrom_length (segs : List ScriptSeg) (t : ℚ) :
    (specBlocksFrom segs t).length = segs.length := by
  induction segs generalizing t with
  | nil => rfl
  | cons seg rest ih => simp [specBlocksFrom, ih]

theorem specBlocksFrom_get : ∀ (segs : List ScriptSeg) (t : ℚ) (j : ℕ)
    (hj : j < (specBlocksFrom segs t).length) (hj2 : j < segs.length),
    (specBlocksFrom segs t).get ⟨j, hj⟩ =
      emitLines (t + segWindowStart segs j)
        ((segs.get ⟨j, hj2⟩).duration /
          (splitIntoLines (segs.get ⟨j, hj2⟩).text).length)
        (splitIntoLines (segs.get ⟨j, hj2⟩).text)
  | [], t, j, hj, hj2 => by simp at hj2
  | seg :: rest, t, 0, hj, hj2 => by
    simp [specBlocksFrom, segWindowStart]
  | seg :: rest, t, j + 1, hj, hj2 => by
    have hj0 : j < (specBlocksFrom rest (t + seg.duration)).length := by
      simpa [specBlocksFrom] using hj
    have hj20 : j < rest.length := by simpa using hj2
    show (specBlocksFrom rest (t + seg.duration)).get ⟨j, hj0⟩ = _
    rw [specBlocksFrom_get rest (t + seg.duration) j hj0 hj20]
    have hws : t + seg.duration + segWindowStart rest j =
        t + segWindowStart (seg :: rest) (j + 1) := by
      simp only [segWindowStart, List.take_succ_cons, List.map_cons, List.sum_cons]
      ring
    rw [hws]
    rfl



/-- C10 amended: if every SPACE-separated token of every segment's text has
at most 60 characters and every segment's text has at least one non-empty
space-separated token, then every produced line has at most 60 characters
and the entries split into one block per segment, block `j` being an equal
partition of segment `j`'s time window. -/
theorem c10_subtitle_wrap_amended (segs : List ScriptSeg)
    (hwords : ∀ seg ∈ segs, ∀ w ∈ splitWords seg.text, w.length ≤ 60)
    (hnonempty : ∀ seg ∈ segs, ∃ w ∈ splitWords seg.text, w ≠ "") :
    subtitleWrapConclusion segs := by
  have hlines : ∀ seg ∈ segs, splitIntoLines seg.text ≠ [] := by
    intro seg hseg
    exact splitIntoLines_ne_nil _ (hnonempty seg hseg)
  have hflat : createSubtitleSegments segs 0 = (specBlocksFrom segs 0).flatten :=
    createSubtitleSegmentsFrom_eq_flatten segs 0 hlines
  constructor
  · intro e he
    rw [hflat] at he
    obtain ⟨blk, hblk, heblk⟩ := List.mem_flatten.mp he
    obtain ⟨k, hk, rfl⟩ := List.mem_iff_get.mp hblk
    have hk2 : (k : ℕ) < segs.length :=
      lt_of_lt_of_eq k.isLt (specBlocksFrom_length segs 0)
    rw [specBlocksFrom_get segs 0 k k.isLt hk2] at heblk
    have htext := emitLines_text_mem _ _ heblk
    exact splitIntoLines_length_le _
      (hwords _ (List.get_mem segs _ _)) _ htext
  · refine ⟨specBlocksFrom segs 0, hflat, specBlocksFrom_length segs 0, ?_⟩
    intro j hj
    rw [specBlocksFrom_get segs 0 j hj j.isLt, zero_add]
    exact emitLines_isEqualPartition _ _ _ (hlines _ (List.get_mem segs _ _))

/-- C10 counterexample: the first segment's text is 61 characters long with a
tab (but no space) in the middle, so its whitespace-separated words are two
30-character words while `split(' ')` keeps it whole — the single produced
line has 61 characters.  The second segment has empty text and duration 5:
it produces no lines at all, so no block of windows can partition its
positive-duration window. -/
theorem c10_counterexample :
    ¬ subtitleWrapClaim
      [⟨"aaaaaaaaaaaaaaaaaaaaaaaaaaaaaa\taaaaaaaaaaaaaaaaaaaaaaaaaaaaaa", 3⟩,
       ⟨"", 5⟩] ∧
    createSubtitleSegments [⟨"", 5⟩] 0 = [] := by
  refine ⟨?_, rfl⟩
  intro hclaim
  have hconc := hclaim (by decide)
  have hcomp : createSubtitleSegments
      [⟨"aaaaaaaaaaaaaaaaaaaaaaaaaaaaaa\taaaaaaaaaaaaaaaaaaaaaaaaaaaaaa", 3⟩,
       ⟨"", 5⟩] 0 =
      [⟨0, 0 + (3 : ℚ) /
        ((splitIntoLines "aaaaaaaaaaaaaaaaaaaaaaaaaaaaaa\taaaaaaaaaaaaaaaaaaaaaaaaaaaaaa").length : ℚ),
        "aaaaaaaaaaaaaaaaaaaaaaaaaaaaaa\taaaaaaaaaaaaaaaaaaaaaaaaaaaaaa"⟩] := rfl
  have hbound := hconc.1 _ (by rw [hcomp]; exact List.mem_cons_self _ _)
  revert hbound
  decide

/-- Witness for C10 amended at a concrete two-segment list. -/
theorem c10_subtitle_wrap_amended_witness :
    ((∀ seg ∈ ([⟨"hello world", 4⟩, ⟨"foo", 6⟩] : List ScriptSeg),
        ∀ w ∈ splitWords seg.text, w.length ≤ 60) ∧
      (∀ seg ∈ ([⟨"hello world", 4⟩, ⟨"foo", 6⟩] : List ScriptSeg),
        ∃ w ∈ splitWords seg.text, w ≠ "")) ∧
    subtitleWrapConclusion [⟨"hello world", 4⟩, ⟨"foo", 6⟩] :=
  ⟨⟨by decide, by decide⟩,
    c10_subtitle_wrap_amended [⟨"hello world", 4⟩, ⟨"foo", 6⟩]
      (by decide) (by decide)⟩

end VideoReel
